import Mathlib

/-!
Verification development for the retrieval core of the Satbayev mentor bot
(`rag_engine.py`, constants from `config.py`).

Modelling conventions:
* Python strings are modelled as `List Char`; positions are `Nat` indices.
* Python floats appear only as the fixed tier constants `0.1`, `0.5` and the
  vector backend's native distances; only order comparisons are performed on
  them, so they are modelled as rationals (`ℚ`).
* The ChromaDB collection is an external collaborator.  Its stored content is
  modelled as a list of documents (`Doc`), its `count()` as the length of that
  list, and the result list of `collection.query` (the vector signal) as an
  explicit parameter of `search`.
* `str.rfind`, slicing, `.strip()`, `.lower()` and the substring test `in` are
  modelled directly after Python's semantics on non-negative indices.  The
  cursor of the chunker is a `Nat`; `end - CHUNK_OVERLAP` uses truncated
  subtraction, which agrees with Python whenever `CHUNK_OVERLAP ≤ end`, and
  that bound holds in every execution analysed below (in the stalling
  counterexample the subtraction is exactly `8 - 8 = 0`, as in Python).
-/

namespace SatbayevRag

/-- `CHUNK_SIZE` from `config.py`. -/
def CHUNK_SIZE : Nat := 1500

/-- `CHUNK_OVERLAP` from `config.py`. -/
def CHUNK_OVERLAP : Nat := 300

/-- `TOP_K_RESULTS` from `config.py`. -/
def TOP_K_RESULTS : Nat := 8

/-- ASCII whitespace recognised by Python's `str.strip()` (the knowledge-base
claims only need that stripping removes some whitespace set; non-ASCII
whitespace is not modelled). -/
def pyIsSpace (c : Char) : Bool :=
  c == ' ' || c == '\t' || c == '\n' || c == '\r' || c == '\x0b' || c == '\x0c'

/-- Python `str.strip()`: drop leading and trailing whitespace. -/
def pyStrip (l : List Char) : List Char :=
  ((l.dropWhile pyIsSpace).reverse.dropWhile pyIsSpace).reverse

/-- Python `str.lower()` restricted to ASCII letters and the Cyrillic range
actually occurring in the keyword table (`А`–`Я` and `Ё`). -/
def pyLowerChar (c : Char) : Char :=
  if 'A' ≤ c ∧ c ≤ 'Z' then Char.ofNat (c.toNat + 32)
  else if 'А' ≤ c ∧ c ≤ 'Я' then Char.ofNat (c.toNat + 32)
  else if c = 'Ё' then 'ё'
  else c

/-- Python `str.lower()` on a whole string. -/
def pyLower (l : List Char) : List Char := l.map pyLowerChar

/-- Python substring test `needle in hay`: some (possibly empty) occurrence of
`needle` starts at an index `i ≤ hay.length`. -/
def pySubstr (needle hay : List Char) : Bool :=
  (List.range (hay.length + 1)).any
    (fun i => (hay.drop i).take needle.length == needle)

/-- Python `text.rfind(sub, s, e)` for `0 ≤ s`, `0 ≤ e`: the greatest index
`i` with `s ≤ i` and `i + sub.length ≤ min e text.length` at which `sub`
occurs, or `none` (Python returns `-1`, used there only in comparisons that
`none` makes false in this model). -/
def pyRfind (text sub : List Char) (s e : Nat) : Option Nat :=
  (List.range (min e text.length)).reverse.find?
    (fun i => decide (s ≤ i) && decide (i + sub.length ≤ min e text.length) &&
      ((text.drop i).take sub.length == sub))

/-- Python slice `text[s:e]` for non-negative bounds. -/
def sliceText (text : List Char) (s e : Nat) : List Char :=
  (text.take e).drop s

/-- The sentence separators tried in order at `rag_engine.py:150`. -/
def sepList : List (List Char) :=
  [['.', ' '], ['.', '\n'], ['!', '\n'], ['?', '\n']]

/-- The `for sep in [...]` loop of `rag_engine.py:150-154`: the first
separator in list order whose rightmost occurrence in `[start, e)` lies
strictly after the midpoint `start + cs / 2` rebinds the end; otherwise the
proposed end `e` is kept. -/
def trySeps (cs : Nat) (text : List Char) (start e : Nat) : List (List Char) → Nat
  | [] => e
  | sep :: rest =>
    match pyRfind text sep start e with
    | some p => if start + cs / 2 < p then p + sep.length else trySeps cs text start e rest
    | none => trySeps cs text start e rest

/-- Lines 142-154 of `rag_engine.py`: the proposed end `start + cs`, snapped
back to a paragraph break (`"\n\n"`) or sentence separator after the chunk
midpoint whenever the proposed end lands strictly before the end of the
text. -/
def chunkEnd (cs : Nat) (text : List Char) (start : Nat) : Nat :=
  let e := start + cs
  if e < text.length then
    match pyRfind text ['\n', '\n'] start e with
    | some p => if start + cs / 2 < p then p + 2 else trySeps cs text start e sepList
    | none => trySeps cs text start e sepList
  else e

/-- Line 166 of `rag_engine.py`:
`start = end - CHUNK_OVERLAP if end < len(text) else end`. -/
def nextStart (cs co : Nat) (text : List Char) (start : Nat) : Nat :=
  let e := chunkEnd cs text start
  if e < text.length then e - co else e

/-- One iteration record of the chunker loop: the cursor span `[start, stop)`
and the stripped slice `text[start:stop].strip()`. -/
structure IterRec where
  start : Nat
  stop : Nat
  text : List Char
deriving DecidableEq

/-- The `while start < len(text)` loop of `rag_engine.py:141-166`, one
`IterRec` per iteration, driven by explicit fuel; `none` means the fuel was
exhausted before the loop condition failed. -/
def splitRecords (cs co : Nat) (text : List Char) : Nat → Nat → Option (List IterRec)
  | 0, _ => none
  | fuel + 1, start =>
    if start < text.length then
      let e := chunkEnd cs text start
      match splitRecords cs co text fuel (nextStart cs co text start) with
      | none => none
      | some rest => some (⟨start, e, pyStrip (sliceText text start e)⟩ :: rest)
    else
      some []

/-- An emitted chunk (`rag_engine.py:159-163`), extended with the span
`[start, stop)` it was cut from (ghost data used to state coverage). -/
structure Chunk where
  text : List Char
  source : String
  ordinal : Nat
  start : Nat
  stop : Nat
deriving DecidableEq

/-- The chunk-id string `f"{source}_chunk_{chunk_id}"` of `rag_engine.py:162`. -/
def Chunk.idStr (c : Chunk) : String :=
  c.source ++ "_chunk_" ++ toString c.ordinal

/-- Lines 156-164 of `rag_engine.py`: emit a chunk for every iteration whose
stripped text is non-empty; the ordinal counter advances only on emission. -/
def mkChunks (source : String) : List IterRec → Nat → List Chunk
  | [], _ => []
  | r :: rest, n =>
    if r.text ≠ [] then
      ⟨r.text, source, n, r.start, r.stop⟩ :: mkChunks source rest (n + 1)
    else
      mkChunks source rest n

/-- `RAGEngine._split_into_chunks` (`rag_engine.py:135-168`), with the loop
bounded by `text.length + 1` iterations; `none` reports that the loop did not
finish within that bound. -/
def split_into_chunks (cs co : Nat) (text : List Char) (source : String) :
    Option (List Chunk) :=
  (splitRecords cs co text (text.length + 1) 0).map (fun rs => mkChunks source rs 0)

/-- An indexed document chunk as stored in the collection: its text and the
`source` metadata field (`rag_engine.py:216-219`). -/
structure Doc where
  text : List Char
  source : String
deriving DecidableEq

/-- A search-result record (`text`, `source`, `distance`) as built by the
three signals in `rag_engine.py`. -/
structure SearchResult where
  text : List Char
  source : String
  distance : ℚ
deriving DecidableEq

/-- `KEYWORD_FILE_MAP` (`rag_engine.py:24-102`), as an association list in
source order. -/
def KEYWORD_FILE_MAP : List (String × String) :=
  [("ректор", "02_leadership.md"),
   ("проректор", "02_leadership.md"),
   ("руководство", "02_leadership.md"),
   ("бегентаев", "02_leadership.md"),
   ("ермекбаев", "02_leadership.md"),
   ("кульдеев", "02_leadership.md"),
   ("ускенбаева", "02_leadership.md"),
   ("шалабаев", "02_leadership.md"),
   ("институт", "03_institutes.md"),
   ("кафедр", "03_institutes.md"),
   ("иаиит", "03_institutes.md"),
   ("факультет", "03_institutes.md"),
   ("структура", "03_institutes.md"),
   ("общежити", "08_dormitory.md"),
   ("заселен", "08_dormitory.md"),
   ("дормитор", "08_dormitory.md"),
   ("кредит", "04_study_process.md"),
   ("аттестац", "04_study_process.md"),
   ("экзамен", "04_study_process.md"),
   ("сессия", "04_study_process.md"),
   ("силлабус", "04_study_process.md"),
   ("эдвайзер", "04_study_process.md"),
   ("пропуск", "04_study_process.md"),
   ("оценк", "05_grades_gpa.md"),
   ("gpa", "05_grades_gpa.md"),
   ("балл", "05_grades_gpa.md"),
   ("ретейк", "05_grades_gpa.md"),
   ("retake", "05_grades_gpa.md"),
   ("регистрац", "06_registration.md"),
   ("дисциплин", "06_registration.md"),
   ("библиотек", "07_services.md"),
   ("медицинск", "07_services.md"),
   ("медпункт", "07_services.md"),
   ("психолог", "07_services.md"),
   ("карьер", "07_services.md"),
   ("оплат", "07_services.md"),
   ("воинск", "07_services.md"),
   ("справк", "07_services.md"),
   ("регистратор", "07_services.md"),
   ("международн", "07_services.md"),
   ("мобильност", "07_services.md"),
   ("стипенди", "09_student_life.md"),
   ("онай", "09_student_life.md"),
   ("оңай", "09_student_life.md"),
   ("организаци", "09_student_life.md"),
   ("клуб", "09_student_life.md"),
   ("банковск", "09_student_life.md"),
   ("контакт", "10_contacts.md"),
   ("телефон", "10_contacts.md"),
   ("email", "10_contacts.md"),
   ("почт", "10_contacts.md"),
   ("отчислен", "11_faq.md"),
   ("перевод", "11_faq.md"),
   ("академ", "11_faq.md"),
   ("грант", "11_faq.md"),
   ("первая неделя", "11_faq.md"),
   ("адрес", "01_general_info.md"),
   ("корпус", "01_general_info.md"),
   ("кампус", "01_general_info.md"),
   ("добраться", "01_general_info.md"),
   ("расположен", "01_general_info.md"),
   ("гук", "01_general_info.md"),
   ("гмк", "01_general_info.md"),
   ("нк", "01_general_info.md"),
   ("мук", "01_general_info.md"),
   ("ккц", "01_general_info.md")]

/-- The exact-match tier distance constant `0.1` of `rag_engine.py:283`
(written with `mkRat` so that it evaluates inside the kernel). -/
def EXACT_DISTANCE : ℚ := mkRat 1 10

/-- The keyword tier distance constant `0.5` of `rag_engine.py:263`. -/
def KEYWORD_DISTANCE : ℚ := mkRat 1 2

/-- The exact-match constant is the literal `0.1` of the source. -/
theorem EXACT_DISTANCE_eq : EXACT_DISTANCE = 1/10 := by
  rw [EXACT_DISTANCE, Rat.mkRat_eq_div]
  norm_num

/-- The keyword constant is the literal `0.5` of the source. -/
theorem KEYWORD_DISTANCE_eq : KEYWORD_DISTANCE = 1/2 := by
  rw [KEYWORD_DISTANCE, Rat.mkRat_eq_div]
  norm_num

/-- The exact-match tier lies strictly below the keyword tier. -/
theorem EXACT_lt_KEYWORD : EXACT_DISTANCE < KEYWORD_DISTANCE := by decide

/-- Lines 243-249 of `rag_engine.py`: the source files whose keyword occurs in
the lower-cased query (the Python `set` is modelled as a list used only for
membership). -/
def matchedFiles (query : List Char) : List String :=
  (KEYWORD_FILE_MAP.filter (fun kf => pySubstr kf.1.data (pyLower query))).map
    (fun kf => kf.2)

/-- `RAGEngine._keyword_search` (`rag_engine.py:241-270`): all stored chunks
whose source is among the matched files, at the fixed mid-tier distance
`0.5`.  When no keyword matches, the matched-file list is empty and so is the
filter, exactly as the early `return []` at line 252. -/
def keyword_search (corpus : List Doc) (query : List Char) : List SearchResult :=
  let mf := matchedFiles query
  (corpus.filter (fun d => d.source ∈ mf)).map
    (fun d => ⟨d.text, d.source, KEYWORD_DISTANCE⟩)

/-- `RAGEngine._text_match_search` (`rag_engine.py:272-290`): all stored
chunks whose lower-cased text contains the lower-cased query, at the fixed
low-tier ("exact match") distance `0.1`. -/
def text_match_search (corpus : List Doc) (query : List Char) : List SearchResult :=
  (corpus.filter (fun d => pySubstr (pyLower query) (pyLower d.text))).map
    (fun d => ⟨d.text, d.source, EXACT_DISTANCE⟩)

/-- The dedup key of `rag_engine.py:327`: the first 100 characters of the
result's text. -/
def textKey (r : SearchResult) : List Char := r.text.take 100

/-- The three `for r in ...` fusion loops of `rag_engine.py:322-344`, run over
the concatenated signal lists: keep the first occurrence of every dedup key,
where `seen` carries the keys already kept. -/
def fuseDedup : List SearchResult → List (List Char) → List SearchResult
  | [], _ => []
  | r :: rest, seen =>
    if textKey r ∈ seen then fuseDedup rest seen
    else r :: fuseDedup rest (textKey r :: seen)

/-- The merged, deduplicated list of `rag_engine.py:321-344`: exact-text
matches first, then the vector signal's results, then keyword results. -/
def combinedResults (corpus : List Doc) (vec : List SearchResult)
    (query : List Char) : List SearchResult :=
  fuseDedup (text_match_search corpus query ++ vec ++ keyword_search corpus query) []

/-- The ascending-by-distance comparison used by `combined.sort(key=...)` at
`rag_engine.py:347`. -/
def distLe (a b : SearchResult) : Bool := a.distance ≤ b.distance

/-- Stable insertion into a list sorted ascending by distance: the new
element goes in front of the first strictly greater element, hence behind all
earlier elements of equal distance. -/
def insertByDist (a : SearchResult) : List SearchResult → List SearchResult
  | [] => [a]
  | b :: l => if a.distance ≤ b.distance then a :: b :: l else b :: insertByDist a l

/-- Stable ascending sort by distance.  Python's `list.sort` (Timsort) is a
stable ascending sort, and every stable ascending sort of the same list is
the same list, so this structurally recursive stable insertion sort computes
exactly the list of `combined.sort(key=lambda x: x["distance"])` at
`rag_engine.py:347` (and, unlike a well-founded merge sort, evaluates inside
the kernel). -/
def sortByDist : List SearchResult → List SearchResult
  | [] => []
  | a :: l => insertByDist a (sortByDist l)

/-- The fused list after the stable ascending sort of `rag_engine.py:347`. -/
def fusedResults (corpus : List Doc) (vec : List SearchResult)
    (query : List Char) : List SearchResult :=
  sortByDist (combinedResults corpus vec query)

/-- `RAGEngine.search` (`rag_engine.py:292-358`).  The vector signal `vec` is
the list the external vector index returned for the query (empty when the
backend failed or returned nothing); the empty-collection guard of lines
294-296 precedes everything else, and lines 349-351 truncate the sorted fused
list to `max(top_k, 10)` entries. -/
def search (corpus : List Doc) (vec : List SearchResult) (query : List Char)
    (top_k : Nat) : List SearchResult :=
  if corpus.length = 0 then []
  else (fusedResults corpus vec query).take (max top_k 10)

/-- The sentinel returned by `get_context` when `search` is empty
(`rag_engine.py:365`). -/
def SENTINEL : List Char :=
  "Информация по данному запросу не найдена в базе знаний.".data

/-- The block separator of `rag_engine.py:373`. -/
def SEPARATOR : List Char := "\n\n---\n\n".data

/-- One labeled context block, `f"[Источник {i}: {source}]\n{text}"`
(`rag_engine.py:369-371`). -/
def renderBlock (i : Nat) (r : SearchResult) : List Char :=
  "[Источник ".data ++ (toString i).data ++ ": ".data ++ r.source.data ++
    "]\n".data ++ r.text

/-- The `for i, result in enumerate(results, 1)` loop of
`rag_engine.py:367-371`, accumulating one block per result with a 1-based
counter. -/
def contextParts (i : Nat) : List SearchResult → List (List Char)
  | [] => []
  | r :: rest => renderBlock i r :: contextParts (i + 1) rest

/-- `RAGEngine.get_context` (`rag_engine.py:360-373`); `search` is invoked
with its default `top_k = TOP_K_RESULTS`. -/
def get_context (corpus : List Doc) (vec : List SearchResult)
    (query : List Char) : List Char :=
  let results := search corpus vec query TOP_K_RESULTS
  if results = [] then SENTINEL
  else List.intercalate SEPARATOR (contextParts 1 results)

/-! ## Chunker lemmas -/

/-- Every separator tried at `rag_engine.py:150` has length 2. -/
theorem sepList_length : ∀ s ∈ sepList, s.length = 2 := by decide

/-- The separator loop either keeps the proposed end or rebinds it strictly
past the midpoint plus the separator length. -/
theorem trySeps_cases (cs : Nat) (text : List Char) (start e : Nat) :
    ∀ seps, (∀ s ∈ seps, s.length = 2) →
      trySeps cs text start e seps = e ∨
      start + cs / 2 + 3 ≤ trySeps cs text start e seps := by
  intro seps
  induction seps with
  | nil => intro _; left; rfl
  | cons sep rest ih =>
    intro hlen
    have hsep : sep.length = 2 := hlen sep (by simp)
    have hrest : ∀ s ∈ rest, s.length = 2 := fun s hs => hlen s (by simp [hs])
    rw [trySeps]
    rcases hfind : pyRfind text sep start e with _ | p
    · simpa [hfind] using ih hrest
    · simp only [hfind]
      by_cases hp : start + cs / 2 < p
      · right; simp only [hp, if_true, hsep]; omega
      · simpa [hp] using ih hrest

/-- The (possibly snapped) end of one chunker iteration is either the raw
proposal `start + cs` or lies strictly past the midpoint. -/
theorem chunkEnd_cases (cs : Nat) (text : List Char) (start : Nat) :
    chunkEnd cs text start = start + cs ∨
    start + cs / 2 + 3 ≤ chunkEnd cs text start := by
  show (if start + cs < text.length then _ else start + cs) = _ ∨ _ ≤
    (if start + cs < text.length then _ else start + cs)
  by_cases he : start + cs < text.length
  · simp only [he, if_true]
    rcases hfind : pyRfind text ['\n', '\n'] start (start + cs) with _ | p
    · simpa [hfind] using trySeps_cases cs text start (start + cs) sepList sepList_length
    · simp only [hfind]
      by_cases hp : start + cs / 2 < p
      · right; simp only [hp, if_true]; omega
      · simpa [hp] using trySeps_cases cs text start (start + cs) sepList sepList_length
  · left; simp [he]

/-- Under `co ≤ cs / 2` (and a positive chunk size) the cursor strictly
advances on every iteration of the chunker loop. -/
theorem nextStart_lt (cs co : Nat) (text : List Char) (hcs : 0 < cs)
    (hco : co ≤ cs / 2) (start : Nat) (hs : start < text.length) :
    start < nextStart cs co text start := by
  have hdiv : cs / 2 < cs := Nat.div_lt_self hcs (by omega)
  have hcases := chunkEnd_cases cs text start
  show start < if chunkEnd cs text start < text.length
    then chunkEnd cs text start - co else chunkEnd cs text start
  by_cases he : chunkEnd cs text start < text.length
  · simp only [he, if_true]
    rcases hcases with h | h <;> omega
  · simp only [he, if_false]
    omega

/-- With `co ≤ cs / 2` the chunker loop finishes within
`text.length - start` iterations. -/
theorem splitRecords_total (cs co : Nat) (text : List Char) (hcs : 0 < cs)
    (hco : co ≤ cs / 2) :
    ∀ fuel start, text.length - start < fuel →
      (splitRecords cs co text fuel start).isSome := by
  intro fuel
  induction fuel with
  | zero => intro start h; omega
  | succ n ih =>
    intro start h
    show (if start < text.length then
        match splitRecords cs co text n (nextStart cs co text start) with
        | none => none
        | some rest => some (⟨start, chunkEnd cs text start,
            pyStrip (sliceText text start (chunkEnd cs text start))⟩ :: rest)
      else some []).isSome
    by_cases hs : start < text.length
    · have hadv := nextStart_lt cs co text hcs hco start hs
      have hsome := ih (nextStart cs co text start) (by omega)
      obtain ⟨rest, hrest⟩ := Option.isSome_iff_exists.mp hsome
      simp [hs, hrest]
    · simp [hs]

/-- C1 (counterexample): with `CHUNK_SIZE = 10` and `CHUNK_OVERLAP = 8`
(which satisfy `CHUNK_OVERLAP < CHUNK_SIZE`) on the text
`"abcdef\n\nxyz"`, the paragraph break at position 6 snaps the end to 8, so
the cursor is advanced to `8 - 8 = 0`: it does not strictly advance, and the
loop exhausts any bounded fuel (here 100 iterations) without terminating. -/
theorem chunker_cursor_stalls_cex :
    (8 : Nat) < 10 ∧ 0 < ("abcdef\n\nxyz".data).length ∧
    nextStart 10 8 "abcdef\n\nxyz".data 0 = 0 ∧
    splitRecords 10 8 "abcdef\n\nxyz".data 100 0 = none := by decide

/-- C1 (amended): the chunker loop terminates — and the cursor strictly
advances on every iteration — whenever `CHUNK_OVERLAP ≤ CHUNK_SIZE / 2` (and
`CHUNK_SIZE > 0`); the repository's configuration `300 ≤ 1500 / 2` satisfies
this.  The bare precondition `CHUNK_OVERLAP < CHUNK_SIZE` of the claim is not
sufficient because boundary snapping can pull the end back to just past the
chunk midpoint. -/
theorem chunker_terminates_of_overlap_le_half (cs co : Nat) (text : List Char)
    (source : String) (hcs : 0 < cs) (hco : co ≤ cs / 2) :
    (∀ start, start < text.length → start < nextStart cs co text start) ∧
    (splitRecords cs co text (text.length + 1) 0).isSome ∧
    (split_into_chunks cs co text source).isSome := by
  refine ⟨fun start hs => nextStart_lt cs co text hcs hco start hs, ?_, ?_⟩
  · exact splitRecords_total cs co text hcs hco _ 0 (by omega)
  · obtain ⟨rs, hrs⟩ := Option.isSome_iff_exists.mp
      (splitRecords_total cs co text hcs hco (text.length + 1) 0 (by omega))
    unfold split_into_chunks
    rw [hrs]
    rfl

/-- Witness for C1 (amended) at the repository configuration. -/
theorem chunker_terminates_witness :
    0 < CHUNK_SIZE ∧ CHUNK_OVERLAP ≤ CHUNK_SIZE / 2 ∧
    (splitRecords CHUNK_SIZE CHUNK_OVERLAP "hi".data ("hi".data.length + 1) 0).isSome :=
  ⟨by decide, by decide,
    (chunker_terminates_of_overlap_le_half CHUNK_SIZE CHUNK_OVERLAP "hi".data "s"
      (by decide) (by decide)).2.1⟩

/-- The cursor never advances past the current iteration's end. -/
theorem nextStart_le_chunkEnd (cs co : Nat) (text : List Char) (start : Nat) :
    nextStart cs co text start ≤ chunkEnd cs text start := by
  show (if chunkEnd cs text start < text.length
    then chunkEnd cs text start - co else chunkEnd cs text start) ≤ _
  split <;> omega

/-- Whenever the chunker loop finishes, its iteration spans cover every
position of the text from the starting cursor on. -/
theorem splitRecords_cover (cs co : Nat) (text : List Char) :
    ∀ fuel start rs, splitRecords cs co text fuel start = some rs →
      ∀ p, start ≤ p → p < text.length →
        ∃ r ∈ rs, r.start ≤ p ∧ p < r.stop := by
  intro fuel
  induction fuel with
  | zero =>
    intro start rs h
    exact absurd h (by rw [splitRecords]; exact Option.noConfusion)
  | succ n ih =>
    intro start rs h p hsp hp
    have hs : start < text.length := lt_of_le_of_lt hsp hp
    rw [splitRecords] at h
    simp only [hs, if_true] at h
    rcases hrec : splitRecords cs co text n (nextStart cs co text start) with _ | rest
    · rw [hrec] at h; cases h
    · rw [hrec] at h
      obtain rfl := (Option.some.inj h).symm
      by_cases hpe : p < chunkEnd cs text start
      · exact ⟨⟨start, chunkEnd cs text start,
          pyStrip (sliceText text start (chunkEnd cs text start))⟩, by simp, hsp, hpe⟩
      · have hnext : nextStart cs co text start ≤ p := by
          have := nextStart_le_chunkEnd cs co text start
          omega
        obtain ⟨r, hr, h1, h2⟩ := ih (nextStart cs co text start) rest hrec p hnext hp
        exact ⟨r, by simp [hr], h1, h2⟩

/-- Every iteration record with non-empty stripped text is emitted as a chunk
with the same span. -/
theorem mkChunks_span (source : String) :
    ∀ rs n r, r ∈ rs → r.text ≠ [] →
      ∃ c ∈ mkChunks source rs n, c.start = r.start ∧ c.stop = r.stop := by
  intro rs
  induction rs with
  | nil => intro n r hr; exact absurd hr (by simp)
  | cons r0 rest ih =>
    intro n r hr hne
    rw [mkChunks]
    by_cases h0 : r0.text = []
    · rw [if_neg (by simpa using h0)]
      rcases List.mem_cons.mp hr with rfl | hr'
      · exact absurd h0 hne
      · exact ih n r hr' hne
    · rw [if_pos h0]
      rcases List.mem_cons.mp hr with rfl | hr'
      · exact ⟨⟨r.text, source, n, r.start, r.stop⟩, by simp, rfl, rfl⟩
      · obtain ⟨c, hc, h1, h2⟩ := ih (n + 1) r hr' hne
        exact ⟨c, by simp [hc], h1, h2⟩

/-- C3 (counterexample): with `CHUNK_SIZE = 4`, `CHUNK_OVERLAP = 1` (which
satisfy the chunker's precondition, even in its amended form) and the text
`"    a"`, the first proposed span `[0, 4)` strips to whitespace-only and is
discarded, so the single emitted chunk has span `[3, 7)` and position `0` of
the text lies in no emitted chunk's span. -/
theorem chunk_coverage_cex :
    (1 : Nat) < 4 ∧ 0 < ("    a".data).length ∧
    (split_into_chunks 4 1 "    a".data "doc").isSome ∧
    (split_into_chunks 4 1 "    a".data "doc").getD [] ≠ [] ∧
    ∀ c ∈ (split_into_chunks 4 1 "    a".data "doc").getD [],
      ¬(c.start ≤ 0 ∧ 0 < c.stop) := by decide

/-- C3 (amended): under the terminating configuration (`0 < CHUNK_SIZE`,
`CHUNK_OVERLAP ≤ CHUNK_SIZE / 2`) every character position of the text lies
inside the span `[start, stop)` of at least one iteration of the split loop;
it lies inside the span of an emitted Chunk whenever no proposed span strips
to whitespace-only (discarded whitespace-only proposals are the only source
of gaps in emitted coverage). -/
theorem chunk_spans_cover (cs co : Nat) (text : List Char) (source : String)
    (hcs : 0 < cs) (hco : co ≤ cs / 2) (p : Nat) (hp : p < text.length) :
    ∃ rs, splitRecords cs co text (text.length + 1) 0 = some rs ∧
      (∃ r ∈ rs, r.start ≤ p ∧ p < r.stop) ∧
      ((∀ r ∈ rs, r.text ≠ []) →
        ∃ c ∈ mkChunks source rs 0, c.start ≤ p ∧ p < c.stop) := by
  obtain ⟨rs, hrs⟩ := Option.isSome_iff_exists.mp
    (splitRecords_total cs co text hcs hco (text.length + 1) 0 (by omega))
  refine ⟨rs, hrs, ?_, ?_⟩
  · exact splitRecords_cover cs co text _ 0 rs hrs p (Nat.zero_le p) hp
  · intro hall
    obtain ⟨r, hr, h1, h2⟩ :=
      splitRecords_cover cs co text _ 0 rs hrs p (Nat.zero_le p) hp
    obtain ⟨c, hc, e1, e2⟩ := mkChunks_span source rs 0 r hr (hall r hr)
    exact ⟨c, hc, by omega⟩

/-- Witness for C3 (amended): position 1 of `"hi"` at the repository
configuration. -/
theorem chunk_spans_cover_witness :
    0 < CHUNK_SIZE ∧ CHUNK_OVERLAP ≤ CHUNK_SIZE / 2 ∧ 1 < ("hi".data).length ∧
    ∃ rs, splitRecords CHUNK_SIZE CHUNK_OVERLAP "hi".data (("hi".data).length + 1) 0 = some rs ∧
      (∃ r ∈ rs, r.start ≤ 1 ∧ 1 < r.stop) ∧
      ((∀ r ∈ rs, r.text ≠ []) →
        ∃ c ∈ mkChunks "s" rs 0, c.start ≤ 1 ∧ 1 < c.stop) :=
  ⟨by decide, by decide, by decide,
    chunk_spans_cover CHUNK_SIZE CHUNK_OVERLAP "hi".data "s"
      (by decide) (by decide) 1 (by decide)⟩

/-- Every chunk emitted from a record list has non-empty text, carries the
given source, and the ordinals count up from the initial counter with no gap
or repetition. -/
theorem mkChunks_props (source : String) :
    ∀ rs n, (∀ c ∈ mkChunks source rs n, c.text ≠ [] ∧ c.source = source) ∧
      (mkChunks source rs n).map Chunk.ordinal =
        List.range' n (mkChunks source rs n).length := by
  intro rs
  induction rs with
  | nil => intro n; exact ⟨by simp [mkChunks], by simp [mkChunks]⟩
  | cons r rest ih =>
    intro n
    rw [mkChunks]
    by_cases h0 : r.text = []
    · rw [if_neg (by simpa using h0)]
      exact ih n
    · rw [if_pos h0]
      refine ⟨?_, ?_⟩
      · intro c hc
        rcases List.mem_cons.mp hc with rfl | hc'
        · exact ⟨h0, rfl⟩
        · exact (ih (n + 1)).1 c hc'
      · simp only [List.map_cons, List.length_cons, List.range'_succ]
        exact congrArg (n :: ·) (ih (n + 1)).2

/-- C9: every emitted chunk has non-empty (trimmed) text and carries its
source; the ordinals within one source are assigned sequentially from 0 in
document order with none reused or skipped, so the ids
`f"{source}_chunk_{ordinal}"` embed exactly the ordinals `0, 1, ...`. -/
theorem chunker_emits_nonempty_sequential (cs co : Nat) (text : List Char)
    (source : String) (chs : List Chunk)
    (h : split_into_chunks cs co text source = some chs) :
    (∀ c ∈ chs, c.text ≠ [] ∧ c.source = source ∧
      c.idStr = source ++ "_chunk_" ++ toString c.ordinal) ∧
    chs.map Chunk.ordinal = List.range chs.length := by
  obtain ⟨rs, hrs, rfl⟩ : ∃ rs,
      splitRecords cs co text (text.length + 1) 0 = some rs ∧
      chs = mkChunks source rs 0 := by
    unfold split_into_chunks at h
    rcases hr : splitRecords cs co text (text.length + 1) 0 with _ | rs
    · rw [hr] at h; cases h
    · rw [hr] at h; exact ⟨rs, rfl, (Option.some.inj h).symm⟩
  have hprops := mkChunks_props source rs 0
  refine ⟨fun c hc => ⟨(hprops.1 c hc).1, (hprops.1 c hc).2,
    by rw [Chunk.idStr, (hprops.1 c hc).2]⟩, ?_⟩
  rw [hprops.2, List.range_eq_range']

/-- Witness for C9 on a two-character document at the repository
configuration. -/
theorem chunker_emits_witness :
    split_into_chunks 1500 300 "hi".data "s" = some [⟨"hi".data, "s", 0, 0, 1500⟩] ∧
    ((∀ c ∈ [(⟨"hi".data, "s", 0, 0, 1500⟩ : Chunk)], c.text ≠ [] ∧ c.source = "s" ∧
        c.idStr = "s" ++ "_chunk_" ++ toString c.ordinal) ∧
      ([(⟨"hi".data, "s", 0, 0, 1500⟩ : Chunk)]).map Chunk.ordinal =
        List.range ([(⟨"hi".data, "s", 0, 0, 1500⟩ : Chunk)]).length) :=
  ⟨by decide, chunker_emits_nonempty_sequential 1500 300 "hi".data "s" _ (by decide)⟩

/-! ## Sorting lemmas -/

/-- Insertion permutes: the result is the element consed on the input. -/
theorem insertByDist_perm (a : SearchResult) (l : List SearchResult) :
    List.Perm (insertByDist a l) (a :: l) := by
  induction l with
  | nil => exact List.Perm.refl _
  | cons b t ih =>
    rw [insertByDist]
    by_cases h : a.distance ≤ b.distance
    · rw [if_pos h]
    · rw [if_neg h]
      exact (ih.cons b).trans (List.Perm.swap a b t)

/-- Sorting permutes the input. -/
theorem sortByDist_perm : ∀ l : List SearchResult, List.Perm (sortByDist l) l := by
  intro l
  induction l with
  | nil => exact List.Perm.refl _
  | cons a t ih =>
    rw [sortByDist]
    exact (insertByDist_perm a (sortByDist t)).trans (ih.cons a)

/-- Membership is preserved by the sort. -/
theorem mem_sortByDist {a : SearchResult} {l : List SearchResult} :
    a ∈ sortByDist l ↔ a ∈ l :=
  (sortByDist_perm l).mem_iff

/-- The sort preserves length. -/
theorem length_sortByDist (l : List SearchResult) :
    (sortByDist l).length = l.length :=
  (sortByDist_perm l).length_eq

/-- Inserting into a distance-sorted list keeps it sorted. -/
theorem insertByDist_pairwise (a : SearchResult) (l : List SearchResult)
    (h : l.Pairwise (fun x y => distLe x y)) :
    (insertByDist a l).Pairwise (fun x y => distLe x y) := by
  induction l with
  | nil => simp [insertByDist]
  | cons b t ih =>
    rw [insertByDist]
    by_cases hab : a.distance ≤ b.distance
    · rw [if_pos hab]
      refine List.Pairwise.cons ?_ h
      intro y hy
      rcases List.mem_cons.mp hy with rfl | hy'
      · simpa [distLe, decide_eq_true_eq] using hab
      · have hby := List.rel_of_pairwise_cons h hy'
        simp only [distLe, decide_eq_true_eq] at hby ⊢
        exact le_trans hab hby
    · rw [if_neg hab]
      have hba : b.distance ≤ a.distance := le_of_not_le hab
      refine List.Pairwise.cons ?_ (ih (List.Pairwise.of_cons h))
      intro y hy
      have hy' : y ∈ a :: t := (insertByDist_perm a t).mem_iff.mp hy
      rcases List.mem_cons.mp hy' with rfl | hy''
      · simpa [distLe, decide_eq_true_eq] using hba
      · exact List.rel_of_pairwise_cons h hy''

/-- The sort output is sorted ascending by distance. -/
theorem sortByDist_sorted : ∀ l : List SearchResult,
    (sortByDist l).Pairwise (fun x y => distLe x y) := by
  intro l
  induction l with
  | nil => simp [sortByDist]
  | cons a t ih =>
    rw [sortByDist]
    exact insertByDist_pairwise a (sortByDist t) ih

/-! ## Fusion lemmas -/

/-- Nothing kept by the dedup pass has a key that was already seen. -/
theorem fuseDedup_key_not_seen :
    ∀ (rs : List SearchResult) (seen : List (List Char)) (r : SearchResult),
      r ∈ fuseDedup rs seen → textKey r ∉ seen := by
  intro rs
  induction rs with
  | nil => intro seen r hr; exact absurd hr (by simp [fuseDedup])
  | cons x rest ih =>
    intro seen r hr
    rw [fuseDedup] at hr
    by_cases hx : textKey x ∈ seen
    · exact ih seen r (by simpa [hx] using hr)
    · rw [if_neg hx] at hr
      rcases List.mem_cons.mp hr with rfl | hr'
      · exact hx
      · have := ih (textKey x :: seen) r hr'
        exact fun hs => this (by simp [hs])

/-- The dedup pass keeps only elements of its input. -/
theorem fuseDedup_subset :
    ∀ (rs : List SearchResult) (seen : List (List Char)) (r : SearchResult),
      r ∈ fuseDedup rs seen → r ∈ rs := by
  intro rs
  induction rs with
  | nil => intro seen r hr; exact absurd hr (by simp [fuseDedup])
  | cons x rest ih =>
    intro seen r hr
    rw [fuseDedup] at hr
    by_cases hx : textKey x ∈ seen
    · exact List.mem_cons_of_mem x (ih seen r (by simpa [hx] using hr))
    · rw [if_neg hx] at hr
      rcases List.mem_cons.mp hr with rfl | hr'
      · exact List.mem_cons_self r rest
      · exact List.mem_cons_of_mem x (ih _ r hr')

/-- No two elements kept by the dedup pass share a key. -/
theorem fuseDedup_pairwise :
    ∀ (rs : List SearchResult) (seen : List (List Char)),
      (fuseDedup rs seen).Pairwise (fun a b => textKey a ≠ textKey b) := by
  intro rs
  induction rs with
  | nil => intro seen; simp [fuseDedup]
  | cons x rest ih =>
    intro seen
    rw [fuseDedup]
    by_cases hx : textKey x ∈ seen
    · simpa [hx] using ih seen
    · rw [if_neg hx]
      refine List.Pairwise.cons ?_ (ih (textKey x :: seen))
      intro b hb
      have := fuseDedup_key_not_seen rest (textKey x :: seen) b hb
      intro he
      exact this (by simp [he])

/-- Each kept element is the first element of the input carrying its key: the
signal inserted earlier wins the dedup tie and keeps its distance value. -/
theorem fuseDedup_first_wins :
    ∀ (rs : List SearchResult) (seen : List (List Char)) (r : SearchResult),
      r ∈ fuseDedup rs seen →
        rs.find? (fun x => textKey x == textKey r) = some r := by
  intro rs
  induction rs with
  | nil => intro seen r hr; exact absurd hr (by simp [fuseDedup])
  | cons x rest ih =>
    intro seen r hr
    rw [fuseDedup] at hr
    by_cases hx : textKey x ∈ seen
    · rw [if_pos hx] at hr
      have hkr : textKey r ∉ seen := fuseDedup_key_not_seen rest seen r hr
      have hne : ¬(textKey x == textKey r) = true := by
        rw [beq_iff_eq]
        intro he
        exact hkr (he ▸ hx)
      have hstep : List.find? (fun y => textKey y == textKey r) (x :: rest) =
          List.find? (fun y => textKey y == textKey r) rest :=
        List.find?_cons_of_neg rest hne
      rw [hstep]
      exact ih seen r hr
    · rw [if_neg hx] at hr
      rcases List.mem_cons.mp hr with rfl | hr'
      · exact List.find?_cons_of_pos _ (beq_self_eq_true _)
      · have hkr : textKey r ∉ textKey x :: seen :=
          fuseDedup_key_not_seen rest (textKey x :: seen) r hr'
        have hne : ¬(textKey x == textKey r) = true := by
          rw [beq_iff_eq]
          intro he
          exact hkr (by simp [he])
        have hstep : List.find? (fun y => textKey y == textKey r) (x :: rest) =
            List.find? (fun y => textKey y == textKey r) rest :=
          List.find?_cons_of_neg rest hne
        rw [hstep]
        exact ih (textKey x :: seen) r hr'

/-- Every returned search result comes from the merged deduplicated list. -/
theorem mem_combined_of_mem_search (corpus : List Doc) (vec : List SearchResult)
    (query : List Char) (topk : Nat) (r : SearchResult)
    (hr : r ∈ search corpus vec query topk) :
    r ∈ combinedResults corpus vec query := by
  by_cases hc : corpus.length = 0
  · rw [search, if_pos hc] at hr
    exact absurd hr (by simp)
  · rw [search, if_neg hc] at hr
    exact mem_sortByDist.mp (List.take_subset _ _ hr)

/-- C4: the sequence returned by `search` contains no two results sharing the
same first-100-character key, and every returned result is the first element
of the concatenation exact-match ++ vector ++ keyword that carries its key —
so a chunk produced by several signals appears once, with the distance of the
signal inserted first under that precedence order. -/
theorem search_dedup_first_wins (corpus : List Doc) (vec : List SearchResult)
    (query : List Char) (topk : Nat) :
    (search corpus vec query topk).Pairwise (fun a b => textKey a ≠ textKey b) ∧
    ∀ r ∈ search corpus vec query topk,
      (text_match_search corpus query ++ vec ++ keyword_search corpus query).find?
        (fun x => textKey x == textKey r) = some r := by
  constructor
  · by_cases hc : corpus.length = 0
    · rw [search, if_pos hc]; simp
    · rw [search, if_neg hc]
      refine List.Pairwise.sublist (List.take_sublist _ _) ?_
      have hperm := sortByDist_perm (combinedResults corpus vec query)
      refine (List.Perm.pairwise_iff ?_ hperm).mpr (fuseDedup_pairwise _ [])
      intro a b h
      exact h.symm
  · intro r hr
    exact fuseDedup_first_wins _ [] r (mem_combined_of_mem_search corpus vec query topk r hr)

/-- Every exact-match result carries the fixed distance `0.1`. -/
theorem text_match_distance (corpus : List Doc) (query : List Char) :
    ∀ r ∈ text_match_search corpus query, r.distance = EXACT_DISTANCE := by
  intro r hr
  unfold text_match_search at hr
  obtain ⟨d, _, rfl⟩ := List.mem_map.mp hr
  rfl

/-- The comparison of `rag_engine.py:347` is transitive. -/
theorem distLe_trans : ∀ a b c : SearchResult, distLe a b → distLe b c → distLe a c := by
  intro a b c hab hbc
  simp only [distLe, decide_eq_true_eq] at *
  exact le_trans hab hbc

/-- The comparison of `rag_engine.py:347` is total. -/
theorem distLe_total : ∀ a b : SearchResult, distLe a b || distLe b a := by
  intro a b
  simp only [distLe, Bool.or_eq_true, decide_eq_true_eq]
  exact le_total _ _

/-- The sequence returned by `search` is sorted ascending by distance. -/
theorem search_sorted (corpus : List Doc) (vec : List SearchResult)
    (query : List Char) (topk : Nat) :
    (search corpus vec query topk).Pairwise (fun a b => distLe a b) := by
  by_cases hc : corpus.length = 0
  · rw [search, if_pos hc]; simp
  · rw [search, if_neg hc]
    refine List.Pairwise.sublist (List.take_sublist _ _) ?_
    exact sortByDist_sorted (combinedResults corpus vec query)

/-- C2: whenever every vector-signal distance exceeds the exact-match
constant `0.1` (the tier-constant assumption of the design), every
exact-match result appears strictly before every vector result in the
sequence returned by `search`. -/
theorem exact_match_before_vector (corpus : List Doc) (vec : List SearchResult)
    (query : List Char) (topk : Nat)
    (hvec : ∀ v ∈ vec, EXACT_DISTANCE < v.distance)
    (i j : Nat) (hi : i < (search corpus vec query topk).length)
    (hj : j < (search corpus vec query topk).length)
    (hexact : (search corpus vec query topk).get ⟨i, hi⟩ ∈ text_match_search corpus query)
    (hvecj : (search corpus vec query topk).get ⟨j, hj⟩ ∈ vec) :
    i < j := by
  have hdi : ((search corpus vec query topk).get ⟨i, hi⟩).distance = EXACT_DISTANCE :=
    text_match_distance corpus query _ hexact
  have hdj : EXACT_DISTANCE < ((search corpus vec query topk).get ⟨j, hj⟩).distance :=
    hvec _ hvecj
  have hpw := (List.pairwise_iff_getElem).mp (search_sorted corpus vec query topk)
  by_contra hij
  rcases Nat.lt_or_ge j i with hji | hji
  · have hle := hpw j i hj hi hji
    simp only [distLe, decide_eq_true_eq] at hle
    simp only [List.get_eq_getElem] at hdi hdj
    rw [hdi] at hle
    exact absurd (lt_of_lt_of_le hdj hle) (lt_irrefl _)
  · have : i = j := by omega
    subst this
    rw [hdi] at hdj
    exact absurd hdj (lt_irrefl _)

/-- Witness for C2: one exact hit (`"abc"`, distance 0.1) and one vector hit
(`"xyz"`, distance 0.3) on different chunks. -/
theorem exact_match_before_vector_witness :
    (∀ v ∈ [(⟨"xyz".data, "s2", mkRat 3 10⟩ : SearchResult)], EXACT_DISTANCE < v.distance) ∧
    (0 : Nat) < 1 :=
  ⟨by decide,
    exact_match_before_vector [⟨"abc".data, "s1"⟩, ⟨"xyz".data, "s2"⟩]
      [⟨"xyz".data, "s2", mkRat 3 10⟩] "abc".data 8 (by decide) 0 1
      (by decide) (by decide) (by decide) (by decide)⟩

/-- C5: `search` truncates the fused, sorted list to
`min (max topK 10) available` entries, hence never below `min 10 available`
even when `topK < 10`. -/
theorem search_truncation_floor (corpus : List Doc) (vec : List SearchResult)
    (query : List Char) (topk : Nat) (h : corpus ≠ []) :
    (search corpus vec query topk).length =
      min (max topk 10) (fusedResults corpus vec query).length ∧
    min 10 (fusedResults corpus vec query).length ≤
      (search corpus vec query topk).length := by
  have hc : ¬ corpus.length = 0 := fun h0 => h (List.length_eq_zero.mp h0)
  have hs : search corpus vec query topk =
      (fusedResults corpus vec query).take (max topk 10) := by
    rw [search, if_neg hc]
  constructor
  · rw [hs, List.length_take]
  · rw [hs, List.length_take]
    have h10 : 10 ≤ max topk 10 := le_max_right _ _
    omega

/-- Witness for C5 with `topK = 3 < 10`. -/
theorem search_truncation_floor_witness :
    ([(⟨"a".data, "s"⟩ : Doc)] ≠ []) ∧
    ((search [⟨"a".data, "s"⟩] [] "zz".data 3).length =
      min (max 3 10) (fusedResults [⟨"a".data, "s"⟩] [] "zz".data).length ∧
    min 10 (fusedResults [⟨"a".data, "s"⟩] [] "zz".data).length ≤
      (search [⟨"a".data, "s"⟩] [] "zz".data 3).length) :=
  ⟨by decide, search_truncation_floor [⟨"a".data, "s"⟩] [] "zz".data 3 (by decide)⟩

/-- C7: `search` against a collection with count zero returns the empty
sequence immediately — no signal output and no error. -/
theorem search_empty_index (corpus : List Doc) (vec : List SearchResult)
    (query : List Char) (topk : Nat) (h : corpus.length = 0) :
    search corpus vec query topk = [] := by
  rw [search, if_pos h]

/-- Witness for C7 (the vector parameter is irrelevant to the guard). -/
theorem search_empty_index_witness :
    ([] : List Doc).length = 0 ∧
    search [] [⟨"x".data, "s", 1⟩] "q".data 5 = [] :=
  ⟨rfl, search_empty_index [] [⟨"x".data, "s", 1⟩] "q".data 5 rfl⟩

/-- C6: the keyword signal returns exactly the stored chunks whose source
lies in the union of the sources of all keywords occurring in the lower-cased
query, each at the fixed mid-tier distance constant `0.5`; when no keyword
matches, the signal contributes the empty list (no error). -/
theorem keyword_search_union (corpus : List Doc) (query : List Char) :
    keyword_search corpus query =
      (corpus.filter (fun d => decide (∃ kf ∈ KEYWORD_FILE_MAP,
        pySubstr kf.1.data (pyLower query) = true ∧ kf.2 = d.source))).map
        (fun d => ⟨d.text, d.source, KEYWORD_DISTANCE⟩) ∧
    (matchedFiles query = [] → keyword_search corpus query = []) := by
  constructor
  · unfold keyword_search
    refine congrArg _ (List.filter_congr ?_)
    intro d _
    rw [decide_eq_decide]
    simp only [matchedFiles, List.mem_map, List.mem_filter]
    constructor
    · rintro ⟨kf, ⟨hmem, hsub⟩, heq⟩
      exact ⟨kf, hmem, hsub, heq⟩
    · rintro ⟨kf, hmem, hsub, heq⟩
      exact ⟨kf, ⟨hmem, hsub⟩, heq⟩
  · intro h
    unfold keyword_search
    rw [h]
    simp

/-- Witness for C6: the query `"как получить стипендию"` routes to
`09_student_life.md` and pulls exactly the chunks of that source. -/
theorem keyword_search_union_witness :
    keyword_search
        [⟨"stip text".data, "09_student_life.md"⟩, ⟨"other".data, "10_contacts.md"⟩]
        "как получить стипендию".data =
      (([⟨"stip text".data, "09_student_life.md"⟩,
          ⟨"other".data, "10_contacts.md"⟩] : List Doc).filter
        (fun d => decide (∃ kf ∈ KEYWORD_FILE_MAP,
          pySubstr kf.1.data (pyLower "как получить стипендию".data) = true ∧
          kf.2 = d.source))).map
        (fun d => ⟨d.text, d.source, KEYWORD_DISTANCE⟩) ∧
    (matchedFiles "как получить стипендию".data = [] →
      keyword_search
        [⟨"stip text".data, "09_student_life.md"⟩, ⟨"other".data, "10_contacts.md"⟩]
        "как получить стипендию".data = []) :=
  keyword_search_union
    [⟨"stip text".data, "09_student_life.md"⟩, ⟨"other".data, "10_contacts.md"⟩]
    "как получить стипендию".data

/-- The accumulation loop of `get_context` is the map over
`enumerate(results, 1)`. -/
theorem contextParts_eq_enumFrom :
    ∀ (i : Nat) (rs : List SearchResult),
      contextParts i rs = (List.enumFrom i rs).map (fun p => renderBlock p.1 p.2) := by
  intro i rs
  induction rs generalizing i with
  | nil => rfl
  | cons r rest ih => simp [contextParts, List.enumFrom, ih]

/-- A rendered context block is never the empty string. -/
theorem renderBlock_ne_nil (i : Nat) (r : SearchResult) : renderBlock i r ≠ [] := by
  show ('[' :: _) ≠ []
  exact List.cons_ne_nil _ _

/-- Joining a non-empty block list whose head is non-empty yields a non-empty
string. -/
theorem intercalate_cons_ne_nil (sep x : List Char) (xs : List (List Char))
    (hx : x ≠ []) : List.intercalate sep (x :: xs) ≠ [] := by
  intro h
  apply hx
  cases xs with
  | nil => simpa [List.intercalate, List.intersperse] using h
  | cons y t =>
    rw [List.intercalate] at h
    simp only [List.intersperse, List.flatten_cons, List.append_eq_nil] at h
    exact h.1

/-- C8: `get_context` always returns a non-empty string: the fixed
"no information found" sentinel when `search` is empty, and otherwise the
results rendered as labeled blocks (1-based source header, then chunk text)
joined by the fixed separator, in exactly the ranking order `search`
produced. -/
theorem get_context_renders (corpus : List Doc) (vec : List SearchResult)
    (query : List Char) :
    get_context corpus vec query ≠ [] ∧
    get_context corpus vec query =
      (if search corpus vec query TOP_K_RESULTS = [] then SENTINEL
       else List.intercalate SEPARATOR
         ((List.enumFrom 1 (search corpus vec query TOP_K_RESULTS)).map
           (fun p => renderBlock p.1 p.2))) := by
  have hdef : get_context corpus vec query =
      (if search corpus vec query TOP_K_RESULTS = [] then SENTINEL
       else List.intercalate SEPARATOR
         (contextParts 1 (search corpus vec query TOP_K_RESULTS))) := rfl
  constructor
  · rw [hdef]
    rcases hres : search corpus vec query TOP_K_RESULTS with _ | ⟨r, rest⟩
    · rw [if_pos rfl]
      decide
    · rw [if_neg (by simp)]
      rw [show contextParts 1 (r :: rest) = renderBlock 1 r :: contextParts 2 rest from rfl]
      exact intercalate_cons_ne_nil SEPARATOR _ _ (renderBlock_ne_nil 1 r)
  · rw [hdef, contextParts_eq_enumFrom]

/-- If every key of the input was already seen, the dedup pass keeps
nothing. -/
theorem fuseDedup_all_seen :
    ∀ (rs : List SearchResult) (seen : List (List Char)),
      (∀ r ∈ rs, textKey r ∈ seen) → fuseDedup rs seen = [] := by
  intro rs
  induction rs with
  | nil => intro seen _; rfl
  | cons x rest ih =>
    intro seen hall
    rw [fuseDedup, if_pos (hall x (by simp))]
    exact ih seen (fun r hr => hall r (by simp [hr]))

/-- A suffix whose keys all occur among the prefix (or were already seen) is
entirely absorbed by the dedup pass. -/
theorem fuseDedup_append_absorb :
    ∀ (xs ys : List SearchResult) (seen : List (List Char)),
      (∀ y ∈ ys, textKey y ∈ seen ∨ ∃ x ∈ xs, textKey y = textKey x) →
      fuseDedup (xs ++ ys) seen = fuseDedup xs seen := by
  intro xs
  induction xs with
  | nil =>
    intro ys seen hall
    rw [List.nil_append]
    apply fuseDedup_all_seen
    intro y hy
    rcases hall y hy with h | ⟨x, hx, _⟩
    · exact h
    · exact absurd hx (List.not_mem_nil x)
  | cons x rest ih =>
    intro ys seen hall
    rw [List.cons_append, fuseDedup, fuseDedup]
    by_cases hx : textKey x ∈ seen
    · rw [if_pos hx, if_pos hx]
      apply ih ys seen
      intro y hy
      rcases hall y hy with h | ⟨x', hx', he⟩
      · exact Or.inl h
      · rcases List.mem_cons.mp hx' with rfl | hx''
        · exact Or.inl (he ▸ hx)
        · exact Or.inr ⟨x', hx'', he⟩
    · rw [if_neg hx, if_neg hx]
      refine congrArg _ (ih ys (textKey x :: seen) ?_)
      intro y hy
      rcases hall y hy with h | ⟨x', hx', he⟩
      · exact Or.inl (by simp [h])
      · rcases List.mem_cons.mp hx' with rfl | hx''
        · exact Or.inl (by simp [he])
        · exact Or.inr ⟨x', hx'', he⟩

/-- On the empty query the exact-substring scanner matches every stored
chunk (the empty string is a substring of everything). -/
theorem text_match_empty_query (corpus : List Doc) :
    text_match_search corpus [] =
      corpus.map (fun d => ⟨d.text, d.source, EXACT_DISTANCE⟩) := by
  unfold text_match_search
  refine congrArg _ (List.filter_eq_self.mpr ?_)
  intro d _
  show pySubstr (pyLower []) (pyLower d.text) = true
  unfold pySubstr
  rw [List.any_eq_true]
  exact ⟨0, List.mem_range.mpr (Nat.succ_pos _), rfl⟩

/-- Every keyword-signal result copies the text of some stored chunk. -/
theorem keyword_search_text_mem (corpus : List Doc) (query : List Char) :
    ∀ r ∈ keyword_search corpus query, ∃ d ∈ corpus, r.text = d.text := by
  intro r hr
  unfold keyword_search at hr
  obtain ⟨d, hd, rfl⟩ := List.mem_map.mp hr
  exact ⟨d, List.mem_of_mem_filter hd, rfl⟩

/-- C10: on the empty query against a non-empty index (with the vector
signal returning stored chunk texts, as the index does), the exact-match
scanner matches every stored chunk, every result of `search` carries the
exact-match distance constant `0.1`, and the result list is non-empty with
exactly `min (max topK 10) (number of deduplicated chunks)` entries. -/
theorem empty_query_all_exact (corpus : List Doc) (vec : List SearchResult)
    (topk : Nat) (hne : corpus ≠ [])
    (hvec : ∀ v ∈ vec, ∃ d ∈ corpus, v.text = d.text) :
    text_match_search corpus [] =
      corpus.map (fun d => ⟨d.text, d.source, EXACT_DISTANCE⟩) ∧
    (∀ r ∈ search corpus vec [] topk, r.distance = EXACT_DISTANCE) ∧
    search corpus vec [] topk ≠ [] ∧
    (search corpus vec [] topk).length =
      min (max topk 10) (fuseDedup (text_match_search corpus []) []).length := by
  have htm := text_match_empty_query corpus
  have habsorb : combinedResults corpus vec [] =
      fuseDedup (text_match_search corpus []) [] := by
    unfold combinedResults
    rw [List.append_assoc]
    apply fuseDedup_append_absorb
    intro y hy
    right
    have hytext : ∃ d ∈ corpus, y.text = d.text := by
      rcases List.mem_append.mp hy with hv | hk
      · exact hvec y hv
      · exact keyword_search_text_mem corpus [] y hk
    obtain ⟨d, hd, hyd⟩ := hytext
    refine ⟨⟨d.text, d.source, EXACT_DISTANCE⟩, ?_, ?_⟩
    · rw [htm]
      exact List.mem_map.mpr ⟨d, hd, rfl⟩
    · simp [textKey, hyd]
  have hc : ¬ corpus.length = 0 := fun h0 => hne (List.length_eq_zero.mp h0)
  have hs : search corpus vec [] topk =
      (sortByDist (combinedResults corpus vec [])).take (max topk 10) := by
    rw [search, if_neg hc]
    rfl
  refine ⟨htm, ?_, ?_, ?_⟩
  · intro r hr
    have hrc : r ∈ combinedResults corpus vec [] :=
      mem_combined_of_mem_search corpus vec [] topk r hr
    rw [habsorb] at hrc
    exact text_match_distance corpus [] r (fuseDedup_subset _ [] r hrc)
  · obtain ⟨d, rest, rfl⟩ : ∃ d rest, corpus = d :: rest := by
      rcases corpus with _ | ⟨d, rest⟩
      · exact absurd rfl hne
      · exact ⟨d, rest, rfl⟩
    intro hempty
    have hlen := congrArg List.length hempty
    rw [hs, List.length_take, length_sortByDist, habsorb] at hlen
    have h1 : 0 < (fuseDedup (text_match_search (d :: rest) []) []).length := by
      rw [htm, List.map_cons, fuseDedup, if_neg (List.not_mem_nil _)]
      simp
    have h2 : 0 < max topk 10 :=
      Nat.lt_of_lt_of_le (by norm_num) (le_max_right topk 10)
    simp only [List.length_nil] at hlen
    omega
  · rw [hs, List.length_take, length_sortByDist, habsorb]

/-- Witness for C10 on a one-chunk corpus with an empty vector signal. -/
theorem empty_query_all_exact_witness :
    ([(⟨"ab".data, "s"⟩ : Doc)] ≠ []) ∧
    (∀ v ∈ ([] : List SearchResult), ∃ d ∈ [(⟨"ab".data, "s"⟩ : Doc)], v.text = d.text) ∧
    (text_match_search [⟨"ab".data, "s"⟩] [] =
      ([(⟨"ab".data, "s"⟩ : Doc)]).map (fun d => ⟨d.text, d.source, EXACT_DISTANCE⟩) ∧
     (∀ r ∈ search [⟨"ab".data, "s"⟩] [] [] 0, r.distance = EXACT_DISTANCE) ∧
     search [⟨"ab".data, "s"⟩] [] [] 0 ≠ [] ∧
     (search [⟨"ab".data, "s"⟩] [] [] 0).length =
       min (max 0 10) (fuseDedup (text_match_search [⟨"ab".data, "s"⟩] []) []).length) :=
  ⟨by decide, by simp,
    empty_query_all_exact [⟨"ab".data, "s"⟩] [] 0 (by decide) (by simp)⟩

end SatbayevRag
